import Mathlib

/-!
Verification of the localized-string resolution service implemented in
`src/src/LanguageManager.cpp` (MultiReplace plugin).  Wide strings
(`std::wstring`) are modelled as `List Char`, translation tables
(`std::map<std::wstring, std::wstring>`) by their lookup functions
`WStr → Option WStr`, and the process-wide render cache
(`std::unordered_map`) as an association list threaded through an
explicit state record.  The INI store (`IniFileCache`, an external
collaborator of this translation unit) is abstracted by the outcome of
its `load` call and by its `raw()` mapping, exactly as the component
interface describes.
-/

/-- Model of `std::wstring`: a list of characters. -/
abbrev WStr := List Char

/-- Model of `std::map<std::wstring, std::wstring>` by its lookup function. -/
abbrev WTbl := WStr → Option WStr

namespace LanguageManager

/-- The delimiter `L'\x1F'` (unit separator) used by `makeKey`
(LanguageManager.cpp line 35). -/
def usSep : Char := '\x1F'

/-- `makeKey` (LanguageManager.cpp lines 30–41): start from the id, push the
separator, then for each replacement append it and push the separator. -/
def makeKey (id : WStr) (repl : List WStr) : WStr :=
  repl.foldl (fun k r => k ++ r ++ [usSep]) (id ++ [usSep])

/-- The literal line-break marker `L"<br/>"` (line 115). -/
def brMark : WStr := "<br/>".toList

/-- The inserted line break `L"\r\n"` (line 119). -/
def crlf : WStr := "\r\n".toList

/-- The fixed base token `L"$REPLACE_STRING"` (line 112). -/
def base : WStr := "$REPLACE_STRING".toList

/-- Model of `std::to_wstring` on an index: decimal digits. -/
def toWString (n : Nat) : WStr := (Nat.repr n).toList

/-- Fuel-indexed worker for the find/replace loops of `LanguageManager::get`
(lines 115–121, 129–135, 142–148).  The C++ loops find the leftmost
occurrence of `pat` at or after the resume position, splice in `val`, and
resume immediately past the inserted text, so inserted text is never
rescanned.  That is exactly a left-to-right scan: at each position, if `pat`
starts here, emit `val` and continue after the matched occurrence, otherwise
keep the character and move on.  The fuel (always instantiated with the
string length, which bounds the number of scan steps) makes the recursion
structural. -/
def replaceAllFuel (pat val : WStr) : Nat → WStr → WStr
  | 0, s => s
  | _+1, [] => []
  | n+1, c :: rest =>
      if pat.isPrefixOf (c :: rest) then
        val ++ replaceAllFuel pat val n (rest.drop (pat.length - 1))
      else
        c :: replaceAllFuel pat val n rest

/-- One find/replace loop of `LanguageManager::get`: replace every
occurrence of `pat` in `s` by `val`, scanning left to right and resuming
past each insertion. -/
def replaceAll (pat val s : WStr) : WStr := replaceAllFuel pat val s.length s

/-- The numbered-placeholder loop (lines 124–136):
`for (size_t i = repl.size(); i > 0; --i)` replace every occurrence of
`base + to_wstring(i)` by `repl[i-1]`.  `numberedPass repl n s` runs the
loop for `i = n` down to `1`; `get` invokes it with `n = repl.length`. -/
def numberedPass (repl : List WStr) : Nat → WStr → WStr
  | 0, s => s
  | i+1, s =>
      numberedPass repl i (replaceAll (base ++ toWString (i+1)) (repl.getD i []) s)

/-- The three substitution passes of `LanguageManager::get` applied to a
template (lines 111–151): replace `<br/>` by CRLF, then numbered
placeholders from the highest index down to 1, then the bare
`$REPLACE_STRING` by `repl[0]` (empty if no replacement was supplied). -/
def render (tmpl : WStr) (repl : List WStr) : WStr :=
  replaceAll base (repl.headD [])
    (numberedPass repl repl.length (replaceAll brMark crlf tmpl))

/-- `LanguageManager::get` (lines 104–152): look the id up in `_table`;
a missing id is returned unchanged, otherwise the template is rendered. -/
def get (table : WTbl) (id : WStr) (repl : List WStr) : WStr :=
  match table id with
  | none => id
  | some tmpl => render tmpl repl

/-- Lookup in the render cache, modelling `std::unordered_map::find`. -/
def lookupC (cache : List (WStr × WStr)) (k : WStr) : Option WStr :=
  (cache.find? (fun e => e.1 == k)).map (fun e => e.2)

/-- The mutable state of the manager: the merged template table `_table`
and the process-wide `lpcwCache()` map. -/
structure State where
  table : WTbl
  cache : List (WStr × WStr)

/-- `LanguageManager::getLPCW` (lines 155–167): build the key, return the
cached rendering on a hit, otherwise render via `get` and emplace the
result.  The returned handle is modelled by the string it points at,
paired with the updated state. -/
def getLPCW (st : State) (id : WStr) (repl : List WStr) : WStr × State :=
  match lookupC st.cache (makeKey id repl) with
  | some v => (v, st)
  | none =>
      (get st.table id repl,
       { st with cache := st.cache ++ [(makeKey id repl, get st.table id repl)] })

/-- `LanguageManager::invalidateCaches` (lines 95–98): clear `lpcwCache()`. -/
def invalidateCaches (st : State) : State := { st with cache := [] }

/-- The merge loop of `loadFromIni` (lines 86–89): if the raw INI data has
an entry for the language code, every key of that override table shadows
the default `languageMap`; otherwise the table is the default one. -/
def mergedTable (languageMap : WTbl) (raw : WStr → Option WTbl)
    (languageCode : WStr) : WTbl :=
  match raw languageCode with
  | some ovr => fun k =>
      match ovr k with
      | some v => some v
      | none => languageMap k
  | none => languageMap

/-- `LanguageManager::loadFromIni` (lines 77–93).  `_table` is first reset
to the default `languageMap`; if the INI load fails the function returns
`false` right away (cache untouched), otherwise the detected language's
entries are merged in, `invalidateCaches` runs, and it returns `true`.
The INI store collaborator is abstracted by the boolean outcome `loadOk`
of `_cache.load` and by its `raw()` mapping. -/
def loadFromIni (languageMap : WTbl) (loadOk : Bool)
    (raw : WStr → Option WTbl) (languageCode : WStr) (st : State) :
    Bool × State :=
  if loadOk then
    (true, invalidateCaches
      { table := mergedTable languageMap raw languageCode, cache := st.cache })
  else
    (false, { table := languageMap, cache := st.cache })

/-- Invariant of the render cache: keys are pairwise distinct, and every
entry was created by `getLPCW` from a separator-free identifier and
replacement list, holding the rendering of that pair under the current
table. -/
def goodCache (table : WTbl) (cache : List (WStr × WStr)) : Prop :=
  (cache.map Prod.fst).Nodup ∧
  ∀ e ∈ cache, ∃ id repl, usSep ∉ id ∧ (∀ r ∈ repl, usSep ∉ r) ∧
    e.1 = makeKey id repl ∧ e.2 = get table id repl

/-! ### Scanner lemmas -/

/-- The fuel of `replaceAllFuel` is irrelevant once it bounds the length of
the scanned string. -/
theorem fuel_irrel (pat val : WStr) :
    ∀ (n m : Nat) (s : WStr), s.length ≤ n → s.length ≤ m →
      replaceAllFuel pat val n s = replaceAllFuel pat val m s := by
  intro n
  induction n with
  | zero =>
    intro m s hn _
    have hs : s = [] := List.eq_nil_of_length_eq_zero (Nat.le_zero.mp hn)
    subst hs
    cases m <;> rfl
  | succ n ih =>
    intro m s hn hm
    cases s with
    | nil => cases m <;> rfl
    | cons c rest =>
      cases m with
      | zero => simp at hm
      | succ m' =>
        simp only [replaceAllFuel]
        by_cases h : pat.isPrefixOf (c :: rest) = true
        · rw [if_pos h, if_pos h]
          have hlen : (rest.drop (pat.length - 1)).length ≤ rest.length := by
            rw [List.length_drop]; omega
          have h1 : rest.length ≤ n := by simp at hn; omega
          have h2 : rest.length ≤ m' := by simp at hm; omega
          exact congrArg (val ++ ·) (ih m' _ (le_trans hlen h1) (le_trans hlen h2))
        · rw [if_neg h, if_neg h]
          have h1 : rest.length ≤ n := by simp at hn; omega
          have h2 : rest.length ≤ m' := by simp at hm; omega
          exact congrArg (c :: ·) (ih m' rest h1 h2)

theorem replaceAll_nil (pat val : WStr) : replaceAll pat val [] = [] := rfl

/-- Unfolding equation of `replaceAll` when the pattern starts at the scan
position: emit `val` and resume past the matched occurrence. -/
theorem replaceAll_cons_pos (pat val : WStr) (c : Char) (rest : WStr)
    (h : pat.isPrefixOf (c :: rest) = true) :
    replaceAll pat val (c :: rest) =
      val ++ replaceAll pat val (rest.drop (pat.length - 1)) := by
  show replaceAllFuel pat val (c :: rest).length (c :: rest) = _
  rw [List.length_cons]
  simp only [replaceAllFuel, if_pos h]
  refine congrArg (val ++ ·) (fuel_irrel pat val _ _ _ ?_ ?_)
  · rw [List.length_drop]; omega
  · exact le_refl _

/-- Unfolding equation of `replaceAll` when the pattern does not start at
the scan position: keep the character and move on. -/
theorem replaceAll_cons_neg (pat val : WStr) (c : Char) (rest : WStr)
    (h : ¬ pat.isPrefixOf (c :: rest) = true) :
    replaceAll pat val (c :: rest) = c :: replaceAll pat val rest := by
  show replaceAllFuel pat val (c :: rest).length (c :: rest) = _
  rw [List.length_cons]
  simp only [replaceAllFuel, if_neg h]
  rfl

/-- A string with no occurrence of the pattern is returned unchanged. -/
theorem replaceAll_no_occ (pat val : WStr) :
    ∀ s : WStr, ¬ pat <:+: s → replaceAll pat val s = s := by
  intro s
  induction s with
  | nil => intro _; rfl
  | cons c rest ih =>
    intro h
    have hpre : ¬ pat.isPrefixOf (c :: rest) = true := by
      intro hp
      exact h ( List.IsPrefix.isInfix (List.isPrefixOf_iff_prefix.mp hp))
    rw [replaceAll_cons_neg pat val c rest hpre]
    have : ¬ pat <:+: rest := fun hin => h (List.infix_cons hin)
    rw [ih this]

/-- Splitting equation of `replaceAll` at the leftmost occurrence of the
pattern: if no occurrence of `pat` starts before position `x.length`
(expressed as: `pat` does not occur in `x` extended by the first
`pat.length - 1` characters of the occurrence), the scan copies `x`,
replaces that occurrence by `val`, and continues after it — the inserted
`val` is never rescanned. -/
theorem replaceAll_split (pat val : WStr) (hp : pat ≠ []) :
    ∀ (x y : WStr), ¬ pat <:+: (x ++ pat.dropLast) →
      replaceAll pat val (x ++ pat ++ y) = x ++ val ++ replaceAll pat val y := by
  intro x
  induction x with
  | nil =>
    intro y _
    obtain ⟨p₀, ps, rfl⟩ : ∃ p₀ ps, pat = p₀ :: ps := by
      cases pat with
      | nil => exact absurd rfl hp
      | cons p₀ ps => exact ⟨p₀, ps, rfl⟩
    have hpre : (p₀ :: ps).isPrefixOf (p₀ :: (ps ++ y)) = true := by
      rw [List.isPrefixOf_iff_prefix]
      have h1 : (p₀ :: ps) <+: (p₀ :: ps) ++ y := List.prefix_append _ _
      simp only [List.cons_append] at h1
      exact h1
    have hgoal : ([] : WStr) ++ (p₀ :: ps) ++ y = p₀ :: (ps ++ y) := by
      simp [List.cons_append]
    rw [hgoal, replaceAll_cons_pos _ _ _ _ hpre]
    have hdrop : (ps ++ y).drop ((p₀ :: ps).length - 1) = y := by
      have : (p₀ :: ps).length - 1 = ps.length := by simp
      rw [this]
      exact List.drop_left ps y
    rw [hdrop]
    simp
  | cons c x' ih =>
    intro y H
    have hs : (c :: x') ++ pat ++ y = c :: (x' ++ pat ++ y) := by
      simp [List.cons_append]
    by_cases hpre : pat.isPrefixOf (c :: (x' ++ pat ++ y)) = true
    · exfalso
      have hpfx : pat <+: (c :: x') ++ (pat ++ y) := by
        have h1 := List.isPrefixOf_iff_prefix.mp hpre
        simpa [List.cons_append, List.append_assoc] using h1
      have htake : pat = ((c :: x') ++ (pat ++ y)).take pat.length :=
        List.prefix_iff_eq_take.mp hpfx
      have hplen : 1 ≤ pat.length := by
        cases pat with
        | nil => exact absurd rfl hp
        | cons a l => simp
      have e1 : ((c :: x') ++ (pat ++ y)).take ((c :: x').length + (pat.length - 1)) =
          (c :: x') ++ pat.dropLast := by
        rw [List.take_append_eq_append_take]
        have h2 : (c :: x').take ((c :: x').length + (pat.length - 1)) = c :: x' :=
          List.take_of_length_le (by omega)
        have h3 : (c :: x').length + (pat.length - 1) - (c :: x').length =
            pat.length - 1 := by omega
        rw [h2, h3, List.take_append_eq_append_take]
        have h4 : pat.length - 1 - pat.length = 0 := by omega
        rw [h4, List.take_zero, List.append_nil, List.dropLast_eq_take]
      have e2 : pat = ((c :: x') ++ pat.dropLast).take pat.length := by
        rw [← e1, List.take_take]
        have hmin : min pat.length ((c :: x').length + (pat.length - 1)) =
            pat.length := by
          simp only [List.length_cons]; omega
        rw [hmin]
        exact htake
      have hpfx2 : pat <+: (c :: x') ++ pat.dropLast :=
        List.prefix_iff_eq_take.mpr (by simpa using e2)
      exact H ( List.IsPrefix.isInfix hpfx2)
    · rw [hs, replaceAll_cons_neg _ _ _ _ hpre]
      have H' : ¬ pat <:+: (x' ++ pat.dropLast) := by
        intro hin
        exact H (by simpa [List.cons_append] using List.infix_cons hin)
      rw [ih y H']
      simp [List.cons_append]

/-- Replacing the pattern inside the pattern itself yields the value. -/
theorem replaceAll_self (pat val : WStr) (hp : pat ≠ []) :
    replaceAll pat val pat = val := by
  have h1 : ¬ pat <:+: (([] : WStr) ++ pat.dropLast) := by
    intro hin
    have h2 := hin.length_le
    have h3 : pat.dropLast.length = pat.length - 1 := by
      rw [List.dropLast_eq_take, List.length_take]; omega
    have h4 : 1 ≤ pat.length := by
      cases pat with
      | nil => exact absurd rfl hp
      | cons a l => simp
    simp only [List.nil_append, h3] at h2
    omega
  have h5 := replaceAll_split pat val hp [] [] h1
  simpa [replaceAll_nil] using h5

/-- An occurrence of an extended pattern contains an occurrence of the
pattern itself. -/
theorem not_infix_extend (p q s : WStr) (h : ¬ p <:+: s) : ¬ (p ++ q) <:+: s := by
  intro hin
  have hpp : p <+: p ++ q := List.prefix_append p q
  exact h ( List.IsInfix.trans ( List.IsPrefix.isInfix hpp) hin)

/-- A string without any occurrence of the base token is left unchanged by
every iteration of the numbered-placeholder loop (each numbered pattern
extends the base token). -/
theorem numberedPass_no_base (repl : List WStr) (s : WStr)
    (h : ¬ base <:+: s) : ∀ n, numberedPass repl n s = s := by
  intro n
  induction n with
  | zero => rfl
  | succ i ih =>
    simp only [numberedPass]
    rw [replaceAll_no_occ _ _ s (not_infix_extend base (toWString (i+1)) s h)]
    exact ih

/-! ### Cache-key lemmas -/

/-- The fold of `makeKey` flattens into separator-terminated chunks. -/
theorem makeKey_eq (id : WStr) (repl : List WStr) :
    makeKey id repl = id ++ usSep :: (repl.map (fun r => r ++ [usSep])).flatten := by
  have h : ∀ (l : List WStr) (a : WStr),
      l.foldl (fun k r => k ++ r ++ [usSep]) a =
        a ++ (l.map (fun r => r ++ [usSep])).flatten := by
    intro l
    induction l with
    | nil => intro a; simp
    | cons r t ih =>
      intro a
      rw [List.foldl_cons, ih]
      simp [List.append_assoc]
  rw [makeKey, h repl]
  simp [List.append_assoc]

/-- Splitting at the first separator is unambiguous when neither prefix
contains the separator. -/
theorem sep_split :
    ∀ (a : WStr), usSep ∉ a → ∀ (b : WStr), usSep ∉ b → ∀ (x y : WStr),
      a ++ usSep :: x = b ++ usSep :: y → a = b ∧ x = y := by
  intro a
  induction a with
  | nil =>
    intro _ b hb x y h
    cases b with
    | nil => simpa using h
    | cons d b' =>
      exfalso
      simp only [List.nil_append, List.cons_append, List.cons.injEq] at h
      exact hb (h.1 ▸ List.mem_cons_self d b')
  | cons c a' ih =>
    intro ha b hb x y h
    cases b with
    | nil =>
      exfalso
      simp only [List.nil_append, List.cons_append, List.cons.injEq] at h
      refine ha ?_
      rw [← h.1]
      exact List.mem_cons_self c a'
    | cons d b' =>
      simp only [List.cons_append, List.cons.injEq] at h
      obtain ⟨rfl, h2⟩ := h
      have ha' : usSep ∉ a' := fun hm => ha (List.mem_cons_of_mem _ hm)
      have hb' : usSep ∉ b' := fun hm => hb (List.mem_cons_of_mem _ hm)
      obtain ⟨e1, e2⟩ := ih ha' b' hb' x y h2
      exact ⟨by rw [e1], e2⟩

/-- The separator-terminated chunk encoding of a list of separator-free
strings is injective. -/
theorem enc_inj :
    ∀ (l₁ : List WStr), (∀ r ∈ l₁, usSep ∉ r) →
    ∀ (l₂ : List WStr), (∀ r ∈ l₂, usSep ∉ r) →
      (l₁.map (fun r => r ++ [usSep])).flatten = (l₂.map (fun r => r ++ [usSep])).flatten →
      l₁ = l₂ := by
  intro l₁
  induction l₁ with
  | nil =>
    intro _ l₂ _ h
    cases l₂ with
    | nil => rfl
    | cons r t =>
      exfalso
      simp only [List.map_nil, List.flatten, List.map_cons, List.flatten_cons] at h
      have := congrArg List.length h
      simp at this
      omega
  | cons r t ih =>
    intro h₁ l₂ h₂ h
    cases l₂ with
    | nil =>
      exfalso
      simp only [List.map_nil, List.flatten, List.map_cons, List.flatten_cons] at h
      have := congrArg List.length h
      simp at this
    | cons r' t' =>
      simp only [List.map_cons, List.flatten_cons, List.append_assoc,
        List.singleton_append] at h
      have hr : usSep ∉ r := h₁ r (List.mem_cons_self r t)
      have hr' : usSep ∉ r' := h₂ r' (List.mem_cons_self r' t')
      obtain ⟨e1, e2⟩ := sep_split r hr r' hr' _ _ h
      subst e1
      have ht : t = t' := by
        refine ih (fun s hs => h₁ s (List.mem_cons_of_mem _ hs)) t'
          (fun s hs => h₂ s (List.mem_cons_of_mem _ hs)) e2
      rw [ht]

/-- `makeKey` is injective on separator-free identifiers and replacement
lists. -/
theorem makeKey_inj (id₁ id₂ : WStr) (r₁ r₂ : List WStr)
    (h1 : usSep ∉ id₁) (h2 : usSep ∉ id₂)
    (h3 : ∀ r ∈ r₁, usSep ∉ r) (h4 : ∀ r ∈ r₂, usSep ∉ r)
    (h : makeKey id₁ r₁ = makeKey id₂ r₂) : id₁ = id₂ ∧ r₁ = r₂ := by
  rw [makeKey_eq, makeKey_eq] at h
  obtain ⟨hid, hJ⟩ := sep_split id₁ h1 id₂ h2 _ _ h
  exact ⟨hid, enc_inj r₁ h3 r₂ h4 hJ⟩

/-! ### Cache-lookup lemmas -/

theorem lookupC_none_iff (cache : List (WStr × WStr)) (k : WStr) :
    lookupC cache k = none ↔ ∀ e ∈ cache, e.1 ≠ k := by
  simp [lookupC, List.find?_eq_none]

theorem lookupC_some (cache : List (WStr × WStr)) (k v : WStr)
    (h : lookupC cache k = some v) :
    ∃ e ∈ cache, e.1 = k ∧ e.2 = v := by
  simp only [lookupC, Option.map_eq_some'] at h
  obtain ⟨e, he, rfl⟩ := h
  refine ⟨e, List.mem_of_find?_eq_some he, ?_, rfl⟩
  have := List.find?_some he
  simpa using this

theorem lookupC_append_right (cache : List (WStr × WStr)) (k v : WStr)
    (h : lookupC cache k = none) :
    lookupC (cache ++ [(k, v)]) k = some v := by
  simp only [lookupC, Option.map_eq_none'] at h ⊢
  rw [List.find?_append, h]
  simp [lookupC]

/-! ### Claim theorems -/

/-- C1 (counterexample): rendering the template
`"$REPLACE_STRING1$REPLACE_STRING"` with the replacement list
`["A", "B"]` does not yield `"BA"`; it yields `"AA"`, because the numbered
token `$REPLACE_STRING1` is resolved with `repl[1-1] = "A"` and the bare
token with `repl[0] = "A"`. -/
theorem c1_render_numbered_precedence_counterexample :
    render ('$' :: "REPLACE_STRING1$REPLACE_STRING".toList) [['A'], ['B']] ≠
      ['B', 'A'] ∧
    render ('$' :: "REPLACE_STRING1$REPLACE_STRING".toList) [['A'], ['B']] =
      ['A', 'A'] := by
  constructor
  · decide
  · decide

/-- C1 (amended): rendering `"$REPLACE_STRING1$REPLACE_STRING"` with
`["A","B"]` yields `"AA"`: the numbered token `$REPLACE_STRING1` is resolved
first, using the first list element `"A"` (numbered token `i` takes element
`i` counting from 1), and the remaining bare token is then also resolved
using the first element `"A"`. -/
theorem c1_render_numbered_precedence_amended :
    render ('$' :: "REPLACE_STRING1$REPLACE_STRING".toList) [['A'], ['B']] =
      ['A', 'A'] := by
  decide

/-- C2 (counterexample): the numbered token `$REPLACE_STRING5`, whose index
5 exceeds the length of the empty replacement list, is not left verbatim:
the bare-token pass replaces its `$REPLACE_STRING` prefix, so rendering
`"$REPLACE_STRING5"` with `[]` yields `"5"`, and the token does not occur
in the output. -/
theorem c2_unresolved_numbered_counterexample :
    render ('$' :: "REPLACE_STRING5".toList) [] = ['5'] ∧
    ¬ ('$' :: "REPLACE_STRING5".toList) <:+:
        render ('$' :: "REPLACE_STRING5".toList) [] := by
  constructor
  · decide
  · decide

/-- C2 (amended): for a template consisting of the base token followed by a
nonempty digit string — a numbered token whose index necessarily exceeds
the length of the empty replacement list — rendering with `[]` does not
leave the token verbatim and does not signal an error: the numbered pass
leaves it untouched, and the bare-token pass then replaces the
`$REPLACE_STRING` prefix with the empty string, leaving exactly the digit
characters. -/
theorem c2_unresolved_numbered_amended (ds : WStr) (_hne : ds ≠ [])
    (hdig : ∀ c ∈ ds, c.isDigit = true) :
    render (base ++ ds) [] = ds := by
  have hnobr : ¬ brMark <:+: (base ++ ds) := by
    intro hin
    have hlt : '<' ∈ base ++ ds := hin.subset (by decide)
    rcases List.mem_append.mp hlt with h | h
    · revert h; decide
    · have := hdig '<' h
      simp at this
  have hnob : ¬ base <:+: ds := by
    intro hin
    have hd : '$' ∈ ds := hin.subset (by decide)
    have := hdig '$' hd
    simp at this
  have hbase : base ≠ [] := by decide
  have hx : ¬ base <:+: (([] : WStr) ++ base.dropLast) := by
    intro hin
    have h2 := hin.length_le
    simp only [List.nil_append, List.dropLast_eq_take, List.length_take] at h2
    have : base.length = 15 := by decide
    omega
  show replaceAll base (List.headD [] []) (numberedPass [] (List.length ([] : List WStr)) (replaceAll brMark crlf (base ++ ds))) = ds
  rw [replaceAll_no_occ brMark crlf (base ++ ds) hnobr]
  show replaceAll base [] (numberedPass [] 0 (base ++ ds)) = ds
  show replaceAll base [] (base ++ ds) = ds
  have h5 := replaceAll_split base [] hbase [] ds hx
  simp only [List.nil_append] at h5
  rw [h5, replaceAll_no_occ base [] ds hnob]

/-- C8: for every identifier absent from the merged table and every
replacement list, `get` returns the identifier itself unchanged (the render
path is a total function: it always produces a string and has no error
outcome). -/
theorem c8_missing_id_fallback (table : WTbl) (id : WStr) (repl : List WStr)
    (h : table id = none) : get table id repl = id := by
  simp [get, h]

/-- Witness for C8 at a concrete empty table. -/
theorem c8_missing_id_fallback_witness :
    get (fun _ => none) ['k'] [['x']] = ['k'] :=
  c8_missing_id_fallback (fun _ => none) ['k'] [['x']] rfl

/-- Witness for C2 (amended) at the concrete digit string `"5"`. -/
theorem c2_unresolved_numbered_witness :
    render (base ++ ['5']) [] = ['5'] :=
  c2_unresolved_numbered_amended ['5'] (by decide) (by decide)

/-- C9: the line-break pass replaces every occurrence of `<br/>` by CRLF,
scanning left to right and resuming past each inserted CRLF (the inserted
text is outside the recursive call, hence never rescanned); a marker-free
string is unchanged; and in particular rendering `"a<br/>b"` with no
replacements yields `"a\r\nb"`. -/
theorem c9_line_break_pass :
    (∀ x y : WStr, ¬ brMark <:+: (x ++ brMark.dropLast) →
        replaceAll brMark crlf (x ++ brMark ++ y) =
          x ++ crlf ++ replaceAll brMark crlf y) ∧
    (∀ s : WStr, ¬ brMark <:+: s → replaceAll brMark crlf s = s) ∧
    render ('a' :: "<br/>b".toList) [] = ('a' :: "\r\nb".toList) := by
  refine ⟨?_, ?_, ?_⟩
  · intro x y h
    exact replaceAll_split brMark crlf (by decide) x y h
  · intro s h
    exact replaceAll_no_occ brMark crlf s h
  · decide

/-- Witness for C9 at `x = "a"`, `y = "b"`. -/
theorem c9_line_break_pass_witness :
    replaceAll brMark crlf (['a'] ++ brMark ++ ['b']) =
      ['a'] ++ crlf ++ replaceAll brMark crlf ['b'] :=
  c9_line_break_pass.1 ['a'] ['b'] (by decide)

/-- C10: a template containing neither the line-break marker `<br/>` nor
the base token `$REPLACE_STRING` is returned unchanged by `render`, for
every replacement list (each numbered pattern extends the base token, so
it cannot occur either). -/
theorem c10_no_token_identity (t : WStr) (repl : List WStr)
    (h1 : ¬ brMark <:+: t) (h2 : ¬ base <:+: t) :
    render t repl = t := by
  show replaceAll base (repl.headD [])
      (numberedPass repl repl.length (replaceAll brMark crlf t)) = t
  rw [replaceAll_no_occ brMark crlf t h1,
    numberedPass_no_base repl t h2 repl.length,
    replaceAll_no_occ base (repl.headD []) t h2]

/-- Witness for C10 at the token-free template `"hello"`. -/
theorem c10_no_token_identity_witness :
    render ('h' :: "ello".toList) [['x'], ['y']] = ('h' :: "ello".toList) :=
  c10_no_token_identity ('h' :: "ello".toList) [['x'], ['y']]
    (by decide) (by decide)

/-- C5: on identifiers and replacement lists free of the delimiter
character U+001F, `makeKey` is injective — two pairs produce equal keys
exactly when the identifiers are equal and the lists are equal
element-by-element (same order, same length). -/
theorem c5_cache_key_injective (id₁ id₂ : WStr) (r₁ r₂ : List WStr)
    (h1 : usSep ∉ id₁) (h2 : usSep ∉ id₂)
    (h3 : ∀ r ∈ r₁, usSep ∉ r) (h4 : ∀ r ∈ r₂, usSep ∉ r) :
    makeKey id₁ r₁ = makeKey id₂ r₂ ↔ (id₁ = id₂ ∧ r₁ = r₂) := by
  constructor
  · exact makeKey_inj id₁ id₂ r₁ r₂ h1 h2 h3 h4
  · rintro ⟨rfl, rfl⟩
    rfl

/-- Witness for C5: same-value lists in a different order, and lists of
different lengths, produce different keys. -/
theorem c5_cache_key_injective_witness :
    ¬ makeKey ['i'] [['a'], ['b']] = makeKey ['i'] [['b'], ['a']] ∧
    ¬ makeKey ['i'] [['a']] = makeKey ['i'] [['a'], ['a']] := by
  constructor
  · intro h
    have h5 := (c5_cache_key_injective ['i'] ['i'] [['a'], ['b']] [['b'], ['a']]
      (by decide) (by decide) (by decide) (by decide)).mp h
    simp at h5
  · intro h
    have h5 := (c5_cache_key_injective ['i'] ['i'] [['a']] [['a'], ['a']]
      (by decide) (by decide) (by decide) (by decide)).mp h
    simp at h5

/-- C7 (counterexample): with the ten replacement values
`["X", "", ..., "", "$REPLACE_STRING"]`, rendering `"$REPLACE_STRING10"`
does not substitute the tenth value for the whole token: the tenth value is
substituted first, but later passes rescan it, and the bare pass rewrites
it to the first value `"X"`. -/
theorem c7_descending_order_counterexample :
    render ('$' :: "REPLACE_STRING10".toList)
        [['X'], [], [], [], [], [], [], [], [], base] = ['X'] ∧
    ([['X'], [], [], [], [], [], [], [], [], base] : List WStr).getD 9 [] ≠
      ['X'] := by
  constructor
  · decide
  · decide

/-- C7 (amended): for every replacement list of ten values none of which
contains the base token `$REPLACE_STRING`, rendering `"$REPLACE_STRING10"`
substitutes the tenth value for the whole token — the numbered pass
processes index 10 first (indices run from the list length down to 1), so
no partial match of `$REPLACE_STRING1` with a stray `0` occurs. -/
theorem c7_descending_order_amended (vs : List WStr)
    (hlen : vs.length = 10) (hfree : ∀ v ∈ vs, ¬ base <:+: v) :
    render ('$' :: "REPLACE_STRING10".toList) vs = vs.getD 9 [] := by
  have h9 : 9 < vs.length := by omega
  have hmem : vs.getD 9 [] ∈ vs := by
    rw [List.getD_eq_getElem vs [] h9]
    exact List.getElem_mem h9
  have hv : ¬ base <:+: vs.getD 9 [] := hfree _ hmem
  have e1 : replaceAll (base ++ toWString 10) (vs.getD 9 [])
      ('$' :: "REPLACE_STRING10".toList) = vs.getD 9 [] := by
    have ht : base ++ toWString 10 = '$' :: "REPLACE_STRING10".toList := by
      decide
    rw [ht]
    exact replaceAll_self _ _ (by decide)
  have e3 : numberedPass vs 10 ('$' :: "REPLACE_STRING10".toList) =
      vs.getD 9 [] := by
    show numberedPass vs 9 (replaceAll (base ++ toWString 10) (vs.getD 9 [])
      ('$' :: "REPLACE_STRING10".toList)) = vs.getD 9 []
    rw [e1]
    exact numberedPass_no_base vs _ hv 9
  show replaceAll base (vs.headD [])
      (numberedPass vs vs.length
        (replaceAll brMark crlf ('$' :: "REPLACE_STRING10".toList))) =
      vs.getD 9 []
  rw [replaceAll_no_occ brMark crlf _ (by decide), hlen, e3,
    replaceAll_no_occ base (vs.headD []) _ hv]

/-- Witness for C7 (amended) at ten copies of the token-free value `"v"`. -/
theorem c7_descending_order_witness :
    render ('$' :: "REPLACE_STRING10".toList) (List.replicate 10 ['v']) =
      ['v'] := by
  have h := c7_descending_order_amended (List.replicate 10 ['v'])
    (by decide) (by decide)
  have h2 : (List.replicate 10 (['v'] : WStr)).getD 9 [] = ['v'] := by decide
  rw [h, h2]

/-- On a cache hit `getLPCW` returns the stored value and leaves the state
unchanged. -/
theorem getLPCW_hit (st : State) (id : WStr) (repl : List WStr) (v : WStr)
    (h : lookupC st.cache (makeKey id repl) = some v) :
    getLPCW st id repl = (v, st) := by
  unfold getLPCW
  rw [h]

/-- On a cache miss `getLPCW` renders via `get` and appends the entry. -/
theorem getLPCW_miss (st : State) (id : WStr) (repl : List WStr)
    (h : lookupC st.cache (makeKey id repl) = none) :
    getLPCW st id repl =
      (get st.table id repl,
       { st with cache :=
          st.cache ++ [(makeKey id repl, get st.table id repl)] }) := by
  unfold getLPCW
  rw [h]

/-- C4: the cached render path.  Under the cache invariant (every stored
entry is the rendering of its separator-free key), and for a separator-free
query: the returned content always equals the uncached `get`; the invariant
— in particular at most one stored entry per distinct key — is preserved;
the table is untouched; a call whose key is already stored returns without
modifying the state (no recomputation is observable); and the first call
for a key stores exactly the rendering under that key. -/
theorem c4_cached_render_path (st : State) (id : WStr) (repl : List WStr)
    (hwf : goodCache st.table st.cache) (hid : usSep ∉ id)
    (hrepl : ∀ r ∈ repl, usSep ∉ r) :
    (getLPCW st id repl).1 = get st.table id repl
    ∧ goodCache (getLPCW st id repl).2.table (getLPCW st id repl).2.cache
    ∧ (getLPCW st id repl).2.table = st.table
    ∧ (∀ v, lookupC st.cache (makeKey id repl) = some v →
        (getLPCW st id repl).2 = st)
    ∧ (lookupC st.cache (makeKey id repl) = none →
        (getLPCW st id repl).2.cache =
          st.cache ++ [(makeKey id repl, get st.table id repl)]) := by
  cases h : lookupC st.cache (makeKey id repl) with
  | some v =>
    have hval : v = get st.table id repl := by
      obtain ⟨e, he, hk, hv⟩ := lookupC_some _ _ _ h
      obtain ⟨id', repl', hid', hrepl', hk', hv'⟩ := hwf.2 e he
      have hkk : makeKey id' repl' = makeKey id repl := by rw [← hk', hk]
      obtain ⟨rfl, rfl⟩ := makeKey_inj id' id repl' repl hid' hid hrepl' hrepl hkk
      rw [← hv, hv']
    rw [getLPCW_hit st id repl v h]
    exact ⟨hval, hwf, rfl, fun _ _ => rfl, fun hn => Option.noConfusion hn⟩
  | none =>
    rw [getLPCW_miss st id repl h]
    have hnotin : makeKey id repl ∉ st.cache.map Prod.fst := by
      intro hmem
      obtain ⟨e, he, hke⟩ := List.mem_map.mp hmem
      exact ((lookupC_none_iff st.cache (makeKey id repl)).mp h) e he hke
    refine ⟨rfl, ⟨?_, ?_⟩, rfl, fun v hv => ?_, fun _ => rfl⟩
    · simp only [List.map_append, List.map_cons, List.map_nil]
      rw [List.nodup_append]
      refine ⟨hwf.1, List.nodup_singleton _, ?_⟩
      intro a ha hb
      simp only [List.mem_singleton] at hb
      exact hnotin (hb ▸ ha)
    · intro e he
      rcases List.mem_append.mp he with hold | hnew
      · obtain ⟨id', repl', p1, p2, p3, p4⟩ := hwf.2 e hold
        exact ⟨id', repl', p1, p2, p3, p4⟩
      · simp only [List.mem_singleton] at hnew
        subst hnew
        exact ⟨id, repl, hid, hrepl, rfl, rfl⟩
    · exact Option.noConfusion hv

/-- Witness for C4 at a one-entry table, an empty cache, and the key
`("i", [])`. -/
theorem c4_cached_render_path_witness :
    (getLPCW ⟨fun k => if k = ['i'] then some ['t'] else none, []⟩
      ['i'] []).1 = ['t'] := by
  have h := (c4_cached_render_path
    ⟨fun k => if k = ['i'] then some ['t'] else none, []⟩ ['i'] []
    ⟨by simp, by simp⟩ (by decide) (by decide)).1
  rw [h]
  decide

/-- C3: `loadFromIni` clears the render cache exactly when it returns
`true`.  After a successful load the cache is empty, so every key misses.
A failing load leaves every cache entry in place even though the table has
been reset to the default `languageMap`; a key cached before the failing
call is still served from the cache by `getLPCW`. -/
theorem c3_reload_invalidation (lm : WTbl) (ok : Bool)
    (raw : WStr → Option WTbl) (code : WStr) (st : State) :
    ((loadFromIni lm ok raw code st).1 = true →
      (loadFromIni lm ok raw code st).2.cache = [] ∧
      ∀ id repl,
        lookupC (loadFromIni lm ok raw code st).2.cache (makeKey id repl) =
          none)
    ∧ ((loadFromIni lm ok raw code st).1 = false →
      (loadFromIni lm ok raw code st).2.cache = st.cache ∧
      (loadFromIni lm ok raw code st).2.table = lm ∧
      ∀ id repl v, lookupC st.cache (makeKey id repl) = some v →
        (getLPCW (loadFromIni lm ok raw code st).2 id repl).1 = v) := by
  cases ok with
  | true =>
    refine ⟨fun _ => ⟨rfl, fun id repl => rfl⟩, fun h => ?_⟩
    simp [loadFromIni] at h
  | false =>
    refine ⟨fun h => ?_, fun _ => ⟨rfl, rfl, fun id repl v hv => ?_⟩⟩
    · simp [loadFromIni] at h
    · have hv' : lookupC (loadFromIni lm false raw code st).2.cache
          (makeKey id repl) = some v := hv
      rw [getLPCW_hit _ id repl v hv']

/-- Witness for C3: a successful reload empties a nonempty cache, and a
failing reload preserves it. -/
theorem c3_reload_invalidation_witness :
    (loadFromIni (fun _ => none) true (fun _ => none) ['e']
        ⟨fun _ => none, [(['k'], ['v'])]⟩).2.cache = [] ∧
    (loadFromIni (fun _ => none) false (fun _ => none) ['e']
        ⟨fun _ => none, [(['k'], ['v'])]⟩).2.cache = [(['k'], ['v'])] := by
  constructor
  · exact ((c3_reload_invalidation (fun _ => none) true (fun _ => none) ['e']
      ⟨fun _ => none, [(['k'], ['v'])]⟩).1 rfl).1
  · exact ((c3_reload_invalidation (fun _ => none) false (fun _ => none) ['e']
      ⟨fun _ => none, [(['k'], ['v'])]⟩).2 rfl).1

/-- C6: after every `loadFromIni` call the resulting table covers every key
of the default `languageMap` (each such key resolves to some template);
and when the call returns `true` and the raw INI data contains a table for
the language code, each key of that override table maps to the override
value while each key absent from it maps to the default value unchanged. -/
theorem c6_merge_fallback (lm : WTbl) (ok : Bool)
    (raw : WStr → Option WTbl) (code : WStr) (st : State) :
    (∀ k v, lm k = some v →
      ∃ w, (loadFromIni lm ok raw code st).2.table k = some w)
    ∧ ((loadFromIni lm ok raw code st).1 = true →
      ∀ ovr, raw code = some ovr →
        (∀ k v, ovr k = some v →
          (loadFromIni lm ok raw code st).2.table k = some v)
        ∧ (∀ k, ovr k = none →
          (loadFromIni lm ok raw code st).2.table k = lm k)) := by
  cases ok with
  | false =>
    refine ⟨fun k v hv => ⟨v, hv⟩, fun h => ?_⟩
    simp [loadFromIni] at h
  | true =>
    constructor
    · intro k v hv
      show ∃ w, mergedTable lm raw code k = some w
      unfold mergedTable
      cases hr : raw code with
      | none => exact ⟨v, hv⟩
      | some ovr =>
        cases ho : ovr k with
        | none => exact ⟨v, by simp [ho, hv]⟩
        | some w => exact ⟨w, by simp [ho]⟩
    · intro _ ovr hovr
      constructor
      · intro k v hv
        show mergedTable lm raw code k = some v
        unfold mergedTable
        rw [hovr]
        show (match ovr k with | some w => some w | none => lm k) = some v
        rw [hv]
      · intro k hk
        show mergedTable lm raw code k = lm k
        unfold mergedTable
        rw [hovr]
        show (match ovr k with | some w => some w | none => lm k) = lm k
        rw [hk]

/-- Witness for C6: an overridden key resolves to the override value, and a
key only in the default table keeps its default value. -/
theorem c6_merge_fallback_witness :
    (loadFromIni (fun k => if k = ['k'] then some ['d'] else none) true
        (fun c => if c = ['g']
          then some (fun k => if k = ['o'] then some ['w'] else none)
          else none) ['g'] ⟨fun _ => none, []⟩).2.table ['o'] = some ['w'] ∧
    (loadFromIni (fun k => if k = ['k'] then some ['d'] else none) true
        (fun c => if c = ['g']
          then some (fun k => if k = ['o'] then some ['w'] else none)
          else none) ['g'] ⟨fun _ => none, []⟩).2.table ['k'] = some ['d'] := by
  have h := (c6_merge_fallback (fun k => if k = ['k'] then some ['d'] else none)
    true
    (fun c => if c = ['g']
      then some (fun k => if k = ['o'] then some ['w'] else none)
      else none) ['g'] ⟨fun _ => none, []⟩).2 rfl
    (fun k => if k = ['o'] then some ['w'] else none) rfl
  constructor
  · exact h.1 ['o'] ['w'] rfl
  · have h2 := h.2 ['k'] (by decide)
    rw [h2]
    decide

end LanguageManager
